import Mathlib

/-!
Verification of the matching-and-traversal core of a scripted dialogue engine
(`src/chatbot.cpp`): the case-insensitive Levenshtein matcher
(`ChatBot::ComputeLevenshteinDistance`), the per-keyword scoring and
`std::sort`-based selection in `ChatBot::ReceiveMessageFromUser`, the
response-emission step in `ChatBot::SetCurrentNode`, and the move
constructor / move assignment operator of `ChatBot`.

Strings are modelled as `List Char` (C++ `std::string` is a sequence of
`char`); the `size_t` cost cells of the matcher are modelled as `Nat`
(all values reached are bounded by the string lengths, far below any
machine-word overflow).
-/

/-- A C++ `std::string`, as a list of characters. -/
abbrev Str := List Char

/-- Model of `::toupper` (C locale, as applied bytewise by
`std::transform(s.begin(), s.end(), s.begin(), ::toupper)` in
`ComputeLevenshteinDistance`): ASCII lowercase letters map to the
corresponding uppercase letter, every other character is unchanged. -/
def cToUpper (c : Char) : Char :=
  if 'a' ≤ c ∧ c ≤ 'z' then Char.ofNat (c.toNat - 32) else c

/-- The textbook Levenshtein recurrence (reference definition, to be proven
equal both to the rolling-row program and to the minimum-edit-script
characterisation). -/
def lev : Str → Str → Nat
  | [], ys => ys.length
  | xs, [] => xs.length
  | x :: xs, y :: ys =>
      if x = y then lev xs ys
      else min (lev xs ys) (min (lev xs (y :: ys)) (lev (x :: xs) ys)) + 1
termination_by xs ys => xs.length + ys.length

theorem lev_nil_left (ys : Str) : lev [] ys = ys.length := by
  cases ys <;> simp [lev]

theorem lev_nil_right (xs : Str) : lev xs [] = xs.length := by
  cases xs <;> simp [lev]

theorem lev_cons_cons (x y : Char) (xs ys : Str) :
    lev (x :: xs) (y :: ys) =
      if x = y then lev xs ys
      else min (lev xs ys) (min (lev xs (y :: ys)) (lev (x :: xs) ys)) + 1 := by
  simp [lev]

/-- `EditSeq xs ys n` : there is a script of `n` single-character edit
operations (insertions, deletions, substitutions) together with cost-free
copies, written left to right, that turns the string `xs` into the string
`ys`. -/
inductive EditSeq : Str → Str → Nat → Prop
  | nil : EditSeq [] [] 0
  | copy (c : Char) {xs ys : Str} {n : Nat} :
      EditSeq xs ys n → EditSeq (c :: xs) (c :: ys) n
  | substitute (a b : Char) {xs ys : Str} {n : Nat} :
      EditSeq xs ys n → EditSeq (a :: xs) (b :: ys) (n + 1)
  | insert (b : Char) {xs ys : Str} {n : Nat} :
      EditSeq xs ys n → EditSeq xs (b :: ys) (n + 1)
  | delete (a : Char) {xs ys : Str} {n : Nat} :
      EditSeq xs ys n → EditSeq (a :: xs) ys (n + 1)

theorem editSeq_nil_left : ∀ ys : Str, EditSeq [] ys ys.length
  | [] => .nil
  | _ :: ys => .insert _ (editSeq_nil_left ys)

theorem editSeq_nil_right : ∀ xs : Str, EditSeq xs [] xs.length
  | [] => .nil
  | _ :: xs => .delete _ (editSeq_nil_right xs)

/-- Achievability half of the characterisation: some edit script realises
the cost computed by the `lev` recurrence. -/
theorem editSeq_of_lev_aux :
    ∀ n xs ys, xs.length + ys.length ≤ n → EditSeq xs ys (lev xs ys) := by
  intro n
  induction n with
  | zero =>
      intro xs ys h
      have hx : xs = [] := by cases xs <;> simp_all
      have hy : ys = [] := by cases ys <;> simp_all
      subst hx; subst hy
      simpa [lev_nil_left] using EditSeq.nil
  | succ n ih =>
      intro xs ys h
      match xs, ys with
      | [], ys => simpa [lev_nil_left] using editSeq_nil_left ys
      | x :: xs, [] => simpa [lev_nil_right] using editSeq_nil_right (x :: xs)
      | x :: xs, y :: ys =>
          simp only [List.length_cons] at h
          rw [lev_cons_cons]
          by_cases hxy : x = y
          · subst hxy
            simp only [if_pos rfl]
            exact .copy x (ih xs ys (by omega))
          · simp only [if_neg hxy]
            have h1 := ih xs ys (by omega)
            have h2 := ih xs (y :: ys) (by simp only [List.length_cons]; omega)
            have h3 := ih (x :: xs) ys (by simp only [List.length_cons]; omega)
            rcases show
                min (lev xs ys) (min (lev xs (y :: ys)) (lev (x :: xs) ys)) = lev xs ys ∨
                min (lev xs ys) (min (lev xs (y :: ys)) (lev (x :: xs) ys)) = lev xs (y :: ys) ∨
                min (lev xs ys) (min (lev xs (y :: ys)) (lev (x :: xs) ys)) = lev (x :: xs) ys
              by omega with hm | hm | hm
            · rw [hm]; exact .substitute x y h1
            · rw [hm]; exact .delete x h2
            · rw [hm]; exact .insert y h3

theorem editSeq_of_lev (xs ys : Str) : EditSeq xs ys (lev xs ys) :=
  editSeq_of_lev_aux (xs.length + ys.length) xs ys le_rfl

/-- Monotone step bounds for the `lev` recurrence: prepending one character
to either argument changes the value by at most one. The four statements
are proved jointly by strong induction on the total length. -/
theorem lev_step_bounds :
    ∀ n xs ys, xs.length + ys.length ≤ n →
      (∀ a, lev (a :: xs) ys ≤ lev xs ys + 1) ∧
      (∀ b, lev xs (b :: ys) ≤ lev xs ys + 1) ∧
      (∀ a, lev xs ys ≤ lev (a :: xs) ys + 1) ∧
      (∀ b, lev xs ys ≤ lev xs (b :: ys) + 1) := by
  intro n
  induction n with
  | zero =>
      intro xs ys h
      have hx : xs = [] := by cases xs <;> simp_all
      have hy : ys = [] := by cases ys <;> simp_all
      subst hx; subst hy
      refine ⟨fun a => ?_, fun b => ?_, fun a => ?_, fun b => ?_⟩ <;>
        simp [lev_nil_left, lev_nil_right]
  | succ n ih =>
      intro xs ys h
      match xs, ys with
      | [], [] =>
          refine ⟨fun a => ?_, fun b => ?_, fun a => ?_, fun b => ?_⟩ <;>
            simp [lev_nil_left, lev_nil_right]
      | [], y :: ys =>
          have hIH := (ih [] ys (by
            simp only [List.length_nil, List.length_cons] at h ⊢; omega)).2.2.1
          refine ⟨fun a => ?_, fun b => ?_, fun a => ?_, fun b => ?_⟩
          · rw [lev_cons_cons]
            split_ifs with hay
            · simp only [lev_nil_left, List.length_cons]; omega
            · simp only [lev_nil_left, List.length_cons]
              omega
          · simp [lev_nil_left]
          · have ha := hIH a
            rw [lev_cons_cons]
            split_ifs with hay
            · simp [lev_nil_left]
            · simp only [lev_nil_left, List.length_cons] at ha ⊢
              omega
          · simp [lev_nil_left]
      | x :: xs, [] =>
          have hIH := (ih xs [] (by
            simp only [List.length_nil, List.length_cons] at h ⊢; omega)).2.2.2
          refine ⟨fun a => ?_, fun b => ?_, fun a => ?_, fun b => ?_⟩
          · simp [lev_nil_right]
          · rw [lev_cons_cons]
            split_ifs with hxb
            · simp only [lev_nil_right, List.length_cons]; omega
            · simp only [lev_nil_right, lev_nil_left, List.length_cons]
              omega
          · simp [lev_nil_right]
          · have hb := hIH b
            rw [lev_cons_cons]
            split_ifs with hxb
            · simp [lev_nil_right]
            · simp only [lev_nil_right, lev_nil_left, List.length_cons] at hb ⊢
              omega
      | x :: xs, y :: ys =>
          have hsum : (x :: xs).length + ys.length ≤ n := by
            simp only [List.length_cons] at h ⊢; omega
          have hsum' : xs.length + (y :: ys).length ≤ n := by
            simp only [List.length_cons] at h ⊢; omega
          have ihL := ih (x :: xs) ys hsum
          have ihR := ih xs (y :: ys) hsum'
          refine ⟨fun a => ?_, fun b => ?_, fun a => ?_, fun b => ?_⟩
          · -- lev (a :: x :: xs) (y :: ys) ≤ lev (x :: xs) (y :: ys) + 1
            rw [lev_cons_cons (x := a)]
            split_ifs with hay
            · exact ihL.2.2.2 y
            · omega
          · -- lev (x :: xs) (b :: y :: ys) ≤ lev (x :: xs) (y :: ys) + 1
            rw [lev_cons_cons (x := x) (y := b)]
            split_ifs with hxb
            · exact ihR.2.2.1 x
            · omega
          · -- lev (x :: xs) (y :: ys) ≤ lev (a :: x :: xs) (y :: ys) + 1
            rw [lev_cons_cons (x := a)]
            split_ifs with hay
            · exact ihL.2.1 y
            · have f1 := ihL.2.1 y
              have f2 := ihL.2.2.1 a
              omega
          · -- lev (x :: xs) (y :: ys) ≤ lev (x :: xs) (b :: y :: ys) + 1
            rw [lev_cons_cons (x := x) (y := b)]
            split_ifs with hxb
            · exact ihR.1 x
            · have f1 := ihR.1 x
              have f2 := ihR.2.2.2 b
              omega

theorem lev_le_cons_left (a : Char) (xs ys : Str) :
    lev (a :: xs) ys ≤ lev xs ys + 1 :=
  (lev_step_bounds (xs.length + ys.length) xs ys le_rfl).1 a

theorem lev_le_cons_right (b : Char) (xs ys : Str) :
    lev xs (b :: ys) ≤ lev xs ys + 1 :=
  (lev_step_bounds (xs.length + ys.length) xs ys le_rfl).2.1 b

theorem lev_cons_left_le (a : Char) (xs ys : Str) :
    lev xs ys ≤ lev (a :: xs) ys + 1 :=
  (lev_step_bounds (xs.length + ys.length) xs ys le_rfl).2.2.1 a

theorem lev_cons_right_le (b : Char) (xs ys : Str) :
    lev xs ys ≤ lev xs (b :: ys) + 1 :=
  (lev_step_bounds (xs.length + ys.length) xs ys le_rfl).2.2.2 b

/-- Optimality half of the characterisation: no edit script beats the cost
computed by the `lev` recurrence. -/
theorem lev_le_of_editSeq {xs ys : Str} {n : Nat} (h : EditSeq xs ys n) :
    lev xs ys ≤ n := by
  induction h with
  | nil => simp [lev_nil_left]
  | copy c h ih => rw [lev_cons_cons]; simp [ih]
  | substitute a b h ih =>
      rw [lev_cons_cons]
      split_ifs with hab
      · omega
      · omega
  | insert b h ih =>
      exact le_trans (lev_le_cons_right b _ _) (by omega)
  | delete a h ih =>
      exact le_trans (lev_le_cons_left a _ _) (by omega)

/-- `lev xs ys` is exactly the least cost of an edit script from `xs` to
`ys`. -/
theorem lev_isLeast (xs ys : Str) :
    IsLeast {n | EditSeq xs ys n} (lev xs ys) :=
  ⟨editSeq_of_lev xs ys, fun _ hn => lev_le_of_editSeq hn⟩

theorem EditSeq.copy_snoc (c : Char) {xs ys : Str} {n : Nat}
    (h : EditSeq xs ys n) : EditSeq (xs ++ [c]) (ys ++ [c]) n := by
  induction h with
  | nil => exact .copy c .nil
  | copy d h ih => exact .copy d ih
  | substitute a b h ih => exact .substitute a b ih
  | insert b h ih => exact .insert b ih
  | delete a h ih => exact .delete a ih

theorem EditSeq.substitute_snoc (a b : Char) {xs ys : Str} {n : Nat}
    (h : EditSeq xs ys n) : EditSeq (xs ++ [a]) (ys ++ [b]) (n + 1) := by
  induction h with
  | nil => exact .substitute a b .nil
  | copy d h ih => exact .copy d ih
  | substitute a' b' h ih => exact .substitute a' b' ih
  | insert b' h ih => exact .insert b' ih
  | delete a' h ih => exact .delete a' ih

theorem EditSeq.insert_snoc (b : Char) {xs ys : Str} {n : Nat}
    (h : EditSeq xs ys n) : EditSeq xs (ys ++ [b]) (n + 1) := by
  induction h with
  | nil => exact .insert b .nil
  | copy d h ih => exact .copy d ih
  | substitute a' b' h ih => exact .substitute a' b' ih
  | insert b' h ih => exact .insert b' ih
  | delete a' h ih => exact .delete a' ih

theorem EditSeq.delete_snoc (a : Char) {xs ys : Str} {n : Nat}
    (h : EditSeq xs ys n) : EditSeq (xs ++ [a]) ys (n + 1) := by
  induction h with
  | nil => exact .delete a .nil
  | copy d h ih => exact .copy d ih
  | substitute a' b' h ih => exact .substitute a' b' ih
  | insert b' h ih => exact .insert b' ih
  | delete a' h ih => exact .delete a' ih

theorem EditSeq.reverse {xs ys : Str} {n : Nat} (h : EditSeq xs ys n) :
    EditSeq xs.reverse ys.reverse n := by
  induction h with
  | nil => exact .nil
  | copy c h ih => simpa using ih.copy_snoc c
  | substitute a b h ih => simpa using ih.substitute_snoc a b
  | insert b h ih => simpa using ih.insert_snoc b
  | delete a h ih => simpa using ih.delete_snoc a

/-- The Levenshtein recurrence is invariant under reversing both strings
(proved via the edit-script characterisation). -/
theorem lev_reverse (xs ys : Str) : lev xs.reverse ys.reverse = lev xs ys := by
  have h1 : ∀ as bs : Str, lev as.reverse bs.reverse ≤ lev as bs := fun as bs =>
    lev_le_of_editSeq (editSeq_of_lev as bs).reverse
  refine le_antisymm (h1 xs ys) ?_
  have := h1 xs.reverse ys.reverse
  simpa using this

/-- Appending one character to each string: the recurrence seen from the
right end. This is the update rule the dynamic-programming inner loop
implements. -/
theorem lev_snoc_snoc (p q : Str) (c d : Char) :
    lev (p ++ [c]) (q ++ [d]) =
      if c = d then lev p q
      else min (lev p q) (min (lev p (q ++ [d])) (lev (p ++ [c]) q)) + 1 := by
  have e1 : lev (p ++ [c]) (q ++ [d]) =
      lev (c :: p.reverse) (d :: q.reverse) := by
    rw [← lev_reverse (p ++ [c]) (q ++ [d])]
    simp
  rw [e1, lev_cons_cons]
  rw [show lev p.reverse q.reverse = lev p q from lev_reverse p q]
  rw [show lev p.reverse (d :: q.reverse) = lev p (q ++ [d]) by
    rw [← lev_reverse p (q ++ [d])]; simp]
  rw [show lev (c :: p.reverse) q.reverse = lev (p ++ [c]) q by
    rw [← lev_reverse (p ++ [c]) q]; simp]

theorem lev_self : ∀ s : Str, lev s s = 0
  | [] => by simp [lev_nil_left]
  | c :: s => by rw [lev_cons_cons, if_pos rfl]; exact lev_self s

/-- One single-character edit applied at an arbitrary position of a string:
an insertion, a deletion, or a substitution of one character. -/
inductive EditStep : Str → Str → Prop
  | insert (u v : Str) (c : Char) : EditStep (u ++ v) (u ++ c :: v)
  | delete (u v : Str) (c : Char) : EditStep (u ++ c :: v) (u ++ v)
  | substitute (u v : Str) (a b : Char) : EditStep (u ++ a :: v) (u ++ b :: v)

/-- `EditChain n xs ys` : the string `xs` is turned into the string `ys` by
`n` successive single-character edits. -/
inductive EditChain : Nat → Str → Str → Prop
  | refl (s : Str) : EditChain 0 s s
  | head {s t u : Str} {n : Nat} :
      EditStep s t → EditChain n t u → EditChain (n + 1) s u

theorem EditStep.cons (c : Char) {s t : Str} (h : EditStep s t) :
    EditStep (c :: s) (c :: t) := by
  cases h with
  | insert u v d => simpa using EditStep.insert (c :: u) v d
  | delete u v d => simpa using EditStep.delete (c :: u) v d
  | substitute u v a b => simpa using EditStep.substitute (c :: u) v a b

theorem EditChain.consChain (c : Char) {s t : Str} {n : Nat}
    (h : EditChain n s t) : EditChain n (c :: s) (c :: t) := by
  induction h with
  | refl s => exact .refl (c :: s)
  | head hstep hchain ih => exact .head (hstep.cons c) ih

theorem EditChain.snoc {s t u : Str} {n : Nat}
    (h : EditChain n s t) (hstep : EditStep t u) : EditChain (n + 1) s u := by
  induction h with
  | refl s => exact .head hstep (.refl u)
  | head hstep' hchain ih => exact .head hstep' (ih hstep)

/-- Every left-to-right edit script can be replayed as a chain of
positional edits of the same total cost. -/
theorem editChain_of_editSeq {xs ys : Str} {n : Nat} (h : EditSeq xs ys n) :
    EditChain n xs ys := by
  induction h with
  | nil => exact .refl []
  | copy c h ih => exact ih.consChain c
  | substitute a b h ih =>
      exact .head (by simpa using EditStep.substitute [] _ a b) (ih.consChain b)
  | insert b h ih => exact ih.snoc (by simpa using EditStep.insert [] _ b)
  | delete a h ih => exact .head (by simpa using EditStep.delete [] _ a) ih

/-- A single positional edit changes `lev` against any third string by at
most one; the three shapes are proved jointly by strong induction on the
length of the untouched front part plus the third string. -/
theorem lev_edit_middle_bounds :
    ∀ n w u, w.length + u.length ≤ n →
      (∀ v c, lev (w ++ v) u ≤ lev (w ++ c :: v) u + 1) ∧
      (∀ v c, lev (w ++ c :: v) u ≤ lev (w ++ v) u + 1) ∧
      (∀ v a b, lev (w ++ a :: v) u ≤ lev (w ++ b :: v) u + 1) := by
  intro n
  induction n with
  | zero =>
      intro w u h
      have hw : w = [] := by cases w <;> simp_all
      have hu : u = [] := by cases u <;> simp_all
      subst hw; subst hu
      refine ⟨fun v c => ?_, fun v c => ?_, fun v a b => ?_⟩ <;>
        simp only [List.nil_append, lev_nil_right, List.length_cons] <;> omega
  | succ n ih =>
      intro w u h
      match w, u with
      | [], [] =>
          refine ⟨fun v c => ?_, fun v c => ?_, fun v a b => ?_⟩ <;>
            simp only [List.nil_append, lev_nil_right, List.length_cons] <;>
              omega
      | [], y :: u' =>
          have ih3 := (ih [] u' (by
            simp only [List.length_nil, List.length_cons] at h ⊢; omega)).2.2
          refine ⟨fun v c => ?_, fun v c => ?_, fun v a b => ?_⟩
          · simpa using lev_cons_left_le c v (y :: u')
          · simpa using lev_le_cons_left c v (y :: u')
          · simp only [List.nil_append]
            by_cases hab : a = b
            · subst hab; omega
            · rw [lev_cons_cons (x := a), lev_cons_cons (x := b)]
              by_cases hay : a = y <;> by_cases hby : b = y
              · exact absurd (hay.trans hby.symm) hab
              · rw [if_pos hay, if_neg hby]
                have f1 := lev_cons_right_le y v u'
                have f2 := lev_cons_left_le b v u'
                omega
              · rw [if_neg hay, if_pos hby]
                omega
              · rw [if_neg hay, if_neg hby]
                have f3 := ih3 v a b
                simp only [List.nil_append] at f3
                omega
      | x :: w', [] =>
          refine ⟨fun v c => ?_, fun v c => ?_, fun v a b => ?_⟩ <;>
            simp only [lev_nil_right, List.length_append, List.length_cons] <;>
              omega
      | x :: w', y :: u' =>
          have s1 : w'.length + u'.length ≤ n := by
            simp only [List.length_cons] at h; omega
          have s2 : w'.length + (y :: u').length ≤ n := by
            simp only [List.length_cons] at h ⊢; omega
          have s3 : (x :: w').length + u'.length ≤ n := by
            simp only [List.length_cons] at h ⊢; omega
          have ih1 := ih w' u' s1
          have ih2 := ih w' (y :: u') s2
          have ih3 := ih (x :: w') u' s3
          refine ⟨fun v c => ?_, fun v c => ?_, fun v a b => ?_⟩
          · simp only [List.cons_append, lev_cons_cons (x := x) (y := y)]
            split_ifs with hxy
            · exact ih1.1 v c
            · have f1 := ih1.1 v c
              have f2 := ih2.1 v c
              have f3 := ih3.1 v c
              simp only [List.cons_append] at f3
              omega
          · simp only [List.cons_append, lev_cons_cons (x := x) (y := y)]
            split_ifs with hxy
            · exact ih1.2.1 v c
            · have f1 := ih1.2.1 v c
              have f2 := ih2.2.1 v c
              have f3 := ih3.2.1 v c
              simp only [List.cons_append] at f3
              omega
          · simp only [List.cons_append, lev_cons_cons (x := x) (y := y)]
            split_ifs with hxy
            · exact ih1.2.2 v a b
            · have f1 := ih1.2.2 v a b
              have f2 := ih2.2.2 v a b
              have f3 := ih3.2.2 v a b
              simp only [List.cons_append] at f3
              omega

theorem lev_le_of_editStep {s t : Str} (h : EditStep s t) (u : Str) :
    lev s u ≤ lev t u + 1 := by
  cases h with
  | insert w v c =>
      exact (lev_edit_middle_bounds (w.length + u.length) w u le_rfl).1 v c
  | delete w v c =>
      exact (lev_edit_middle_bounds (w.length + u.length) w u le_rfl).2.1 v c
  | substitute w v a b =>
      exact (lev_edit_middle_bounds (w.length + u.length) w u le_rfl).2.2 v a b

theorem lev_le_of_editChain {s u : Str} {n : Nat} (h : EditChain n s u) :
    lev s u ≤ n := by
  induction h with
  | refl s => simp [lev_self]
  | @head s t u n hstep hchain ih =>
      have := lev_le_of_editStep hstep u
      omega

/-- `lev xs ys` is exactly the minimum number of single-character
insertions, deletions and substitutions turning `xs` into `ys`. -/
theorem levChain_isLeast (xs ys : Str) :
    IsLeast {n | EditChain n xs ys} (lev xs ys) :=
  ⟨editChain_of_editSeq (editSeq_of_lev xs ys),
   fun _ hn => lev_le_of_editChain hn⟩

/-- Inner loop of `ComputeLevenshteinDistance` (`for (it2 = s2.begin(); ...)`,
`src/chatbot.cpp` lines 221–235): walks the second string together with the
tail of the previous cost row (`upper` reads `costs[j+1]` before it is
overwritten), carrying the diagonal value `corner` and the freshly written
cell `left` (`costs[j]`), and emits the new row tail.  The cell update is
the source's `costs[j+1] = (*it1 == *it2) ? corner
: min(costs[j], min(upper, corner)) + 1`. -/
def rowAux (c1 : Char) : Str → List Nat → Nat → Nat → List Nat
  | [], _, _, _ => []
  | _ :: _, [], _, _ => []
  | c2 :: cs, upper :: uppers, corner, left =>
      let val := if c1 = c2 then corner else min left (min upper corner) + 1
      val :: rowAux c1 cs uppers upper val

/-- Outer loop of `ComputeLevenshteinDistance` (`for (it1 = s1.begin(); ...)`,
`src/chatbot.cpp` lines 215–236): for the `i`-th character of the first
string, writes `costs[0] = i + 1`, takes `corner = i`, and updates the rest
of the row through `rowAux`. -/
def levLoop : Str → Str → List Nat → Nat → List Nat
  | [], _, costs, _ => costs
  | c1 :: cs1, s2, costs, i =>
      levLoop cs1 s2 ((i + 1) :: rowAux c1 s2 costs.tail i (i + 1)) (i + 1)

/-- `ChatBot::ComputeLevenshteinDistance` (`src/chatbot.cpp` lines 194–242):
upper-cases both strings (`std::transform` with `::toupper`), returns the
other length when one string is empty, and otherwise runs the rolling-row
dynamic program over `costs[0..n] = 0,1,...,n` and returns `costs[n]`. -/
def ComputeLevenshteinDistance (s1 s2 : Str) : Nat :=
  let t1 := s1.map cToUpper
  let t2 := s2.map cToUpper
  let m := t1.length
  let n := t2.length
  if m = 0 then n
  else if n = 0 then m
  else (levLoop t1 t2 (List.range (n + 1)) 0).getD n 0

/-- The intended contents of the cost row after the prefix `p` of the first
string has been processed: the cell for each non-empty prefix `u ++ ...` of
the second string holds `lev p` of that prefix. -/
def rowSpec (p u : Str) : Str → List Nat
  | [] => []
  | d :: v => lev p (u ++ [d]) :: rowSpec p (u ++ [d]) v

theorem rowAux_spec (c : Char) (p : Str) :
    ∀ (v u : Str),
      rowAux c v (rowSpec p u v) (lev p u) (lev (p ++ [c]) u) =
        rowSpec (p ++ [c]) u v := by
  intro v
  induction v with
  | nil => intro u; rfl
  | cons d v ih =>
      intro u
      show rowAux c (d :: v)
          (lev p (u ++ [d]) :: rowSpec p (u ++ [d]) v)
          (lev p u) (lev (p ++ [c]) u) =
          lev (p ++ [c]) (u ++ [d]) :: rowSpec (p ++ [c]) (u ++ [d]) v
      simp only [rowAux]
      have hval : (if c = d then lev p u
          else min (lev (p ++ [c]) u)
            (min (lev p (u ++ [d])) (lev p u)) + 1) =
          lev (p ++ [c]) (u ++ [d]) := by
        rw [lev_snoc_snoc]
        split_ifs with hcd
        · rfl
        · omega
      rw [hval, ih (u ++ [d])]

theorem levLoop_spec (t2 : Str) :
    ∀ (cs p : Str),
      levLoop cs t2 (lev p [] :: rowSpec p [] t2) p.length =
        lev (p ++ cs) [] :: rowSpec (p ++ cs) [] t2 := by
  intro cs
  induction cs with
  | nil => intro p; simp [levLoop]
  | cons c cs ih =>
      intro p
      show levLoop cs t2
          ((p.length + 1) ::
            rowAux c t2 (lev p [] :: rowSpec p [] t2).tail p.length
              (p.length + 1)) (p.length + 1) =
          lev (p ++ c :: cs) [] :: rowSpec (p ++ c :: cs) [] t2
      have hc : lev p [] = p.length := lev_nil_right p
      have hc' : lev (p ++ [c]) [] = p.length + 1 := by
        rw [lev_nil_right]; simp
      have hlen : (p ++ [c]).length = p.length + 1 := by simp
      have haux : rowAux c t2 (rowSpec p [] t2) p.length (p.length + 1) =
          rowSpec (p ++ [c]) [] t2 := by
        rw [← hc', ← hc]
        exact rowAux_spec c p t2 []
      have ihc := ih (p ++ [c])
      rw [hc', hlen] at ihc
      rw [List.tail_cons, haux, ihc]
      simp

theorem rowSpec_empty_eq_range' :
    ∀ (v u : Str), rowSpec [] u v = List.range' (u.length + 1) v.length := by
  intro v
  induction v with
  | nil => intro u; rfl
  | cons d v ih =>
      intro u
      show lev [] (u ++ [d]) :: rowSpec [] (u ++ [d]) v =
          List.range' (u.length + 1) (v.length + 1)
      rw [List.range'_succ, ih (u ++ [d]), lev_nil_left]
      simp

theorem range_eq_rowSpec_empty (t2 : Str) :
    List.range (t2.length + 1) = lev [] [] :: rowSpec [] [] t2 := by
  rw [List.range_eq_range', List.range'_succ, rowSpec_empty_eq_range',
    lev_nil_left]
  rfl

theorem rowSpec_getD_last (p : Str) :
    ∀ (v u : Str), v ≠ [] →
      (rowSpec p u v).getD (v.length - 1) 0 = lev p (u ++ v) := by
  intro v
  induction v with
  | nil => intro u h; exact absurd rfl h
  | cons d v ih =>
      intro u _
      match v with
      | [] => simp [rowSpec]
      | e :: v' =>
          show (lev p (u ++ [d]) :: rowSpec p (u ++ [d]) (e :: v')).getD
              ((e :: v').length + 1 - 1) 0 = lev p (u ++ d :: e :: v')
          have := ih (u ++ [d]) (by simp)
          simp only [List.length_cons] at this ⊢
          rw [show (v'.length + 1 + 1 - 1) = (v'.length + 1 - 1) + 1 by omega]
          rw [List.getD_cons_succ, this]
          simp

/-- The program's rolling-row dynamic program computes exactly the textbook
Levenshtein recurrence on the two upper-cased strings. -/
theorem computeLevenshteinDistance_eq_lev (s1 s2 : Str) :
    ComputeLevenshteinDistance s1 s2 =
      lev (s1.map cToUpper) (s2.map cToUpper) := by
  unfold ComputeLevenshteinDistance
  simp only []
  split_ifs with hm hn
  · rw [List.length_eq_zero] at hm
    rw [hm, lev_nil_left]
  · rw [List.length_eq_zero] at hn
    rw [hn, lev_nil_right]
  · rw [range_eq_rowSpec_empty (s2.map cToUpper)]
    have hloop := levLoop_spec (s2.map cToUpper) (s1.map cToUpper) []
    simp only [List.length_nil, List.nil_append] at hloop
    rw [hloop]
    have hne : (s2.map cToUpper) ≠ [] := by
      intro hcon; rw [hcon] at hn; exact hn rfl
    rw [show (s2.map cToUpper).length =
        ((s2.map cToUpper).length - 1) + 1 by omega]
    rw [List.getD_cons_succ]
    rw [rowSpec_getD_last (s1.map cToUpper) (s2.map cToUpper) [] hne]
    rfl

/-- Claim C1: for all strings `a` and `b`, `ComputeLevenshteinDistance a b`
returns a non-negative integer (a natural number in this model) equal to
the Levenshtein edit distance — the minimum number of single-character
insertions, deletions and substitutions turning one string into the other
— between the two inputs after both are case-folded to a single (upper)
case; in particular the distance of the empty string against `s` is the
length of `s`.  The minimality is stated both over chains of positional
edits (`EditChain`) and over left-to-right edit scripts (`EditSeq`). -/
theorem C1_computeLevenshteinDistance_correct :
    (∀ s1 s2 : Str,
        IsLeast {n | EditChain n (s1.map cToUpper) (s2.map cToUpper)}
          (ComputeLevenshteinDistance s1 s2) ∧
        IsLeast {n | EditSeq (s1.map cToUpper) (s2.map cToUpper) n}
          (ComputeLevenshteinDistance s1 s2)) ∧
    (∀ s : Str, ComputeLevenshteinDistance [] s = s.length) := by
  constructor
  · intro s1 s2
    rw [computeLevenshteinDistance_eq_lev]
    exact ⟨levChain_isLeast _ _, lev_isLeast _ _⟩
  · intro s
    rw [computeLevenshteinDistance_eq_lev]
    simp only [List.map_nil]
    rw [lev_nil_left]
    simp

theorem computeLevenshteinDistance_example_kitten :
    ComputeLevenshteinDistance "kitten".toList "sitting".toList = 3 := by
  decide

theorem computeLevenshteinDistance_example_case :
    ComputeLevenshteinDistance "Cat".toList "cAT".toList = 0 := by
  decide

theorem computeLevenshteinDistance_example_empty :
    ComputeLevenshteinDistance [] "cat".toList = 3 := by
  decide

/-- Modelled from the spec (§3 "Transition"; `graphedge.h` / `graphedge.cpp`
are not under `src/`): a directed edge of the dialogue graph, carrying the
keyword list returned by `GetKeywords()` and the id of the destination node
returned by `GetChildNode()` (node ids play the role of `GraphNode*`
pointers). -/
structure GraphEdge where
  id : Nat
  keywords : List Str
  childNode : Nat
  deriving DecidableEq

/-- Modelled from the spec (§3 "Topic"; `graphnode.h` / `graphnode.cpp` are
not under `src/`): a node of the dialogue graph with its pre-authored
answers (`GetAnswers()`) and its ordered outgoing edges
(`GetNumberOfChildEdges()` / `GetChildEdgeAtIndex(i)`). -/
structure GraphNode where
  id : Nat
  answers : List Str
  childEdges : List GraphEdge
  deriving DecidableEq

/-- The data handles of a live `ChatBot` (`_image`, `_currentNode`,
`_rootNode`, `_chatLogic`) together with the immutable dialogue graph the
node handles point into; node handles are node ids. -/
structure EngineState where
  graph : List GraphNode
  image : Option Nat
  currentNode : Nat
  rootNode : Nat
  chatLogic : Nat
  deriving DecidableEq

/-- Runtime failures of a turn: dereferencing a node handle that resolves
to no node of the graph, and the `std::out_of_range` exception thrown by
`answers.at(...)` in `SetCurrentNode` when the answer vector is empty. -/
inductive TurnError
  | unknownNode
  | emptyAnswerSet
  deriving DecidableEq

def findNode (g : List GraphNode) (i : Nat) : Option GraphNode :=
  g.find? (fun node => node.id == i)

/-- The pair-collection loop of `ChatBot::ReceiveMessageFromUser`
(`src/chatbot.cpp` lines 147–159): for each outgoing edge of the current
node in index order, and for each of its keywords in stored order, push
the pair `(edge, ComputeLevenshteinDistance(keyword, message))` onto the
`levDists` vector. -/
def collectLevDists (node : GraphNode) (message : Str) :
    List (GraphEdge × Nat) :=
  node.childEdges.foldl
    (fun acc edge =>
      edge.keywords.foldl
        (fun acc2 keyword =>
          acc2 ++ [(edge, ComputeLevenshteinDistance keyword message)])
        acc)
    []

/-- The ordering on collected pairs induced by the comparator
`a.second < b.second` passed to `std::sort` in `ReceiveMessageFromUser`
(line 166): a sorted result has non-decreasing distances. -/
def edLE (a b : GraphEdge × Nat) : Prop := a.2 ≤ b.2

instance : DecidableRel edLE :=
  fun a b => inferInstanceAs (Decidable (a.2 ≤ b.2))

instance : IsTotal (GraphEdge × Nat) edLE :=
  ⟨fun a b => Nat.le_total a.2 b.2⟩

instance : IsTrans (GraphEdge × Nat) edLE :=
  ⟨fun _ _ _ => Nat.le_trans⟩

/-- What the C++ standard guarantees about `std::sort` with the comparator
of line 166: the output is a permutation of the input that is sorted by
non-decreasing distance.  Nothing more is guaranteed — in particular
`std::sort` is not stable, so which permutation is produced among
equal-distance elements is unspecified.  The library's (deterministic)
implementation is therefore modelled as an arbitrary but fixed function
satisfying this contract. -/
def SortValid (f : List (GraphEdge × Nat) → List (GraphEdge × Nat)) : Prop :=
  ∀ l, List.Perm (f l) l ∧ List.Sorted edLE (f l)

/-- The edge-selection logic of `ReceiveMessageFromUser` (lines 161–173),
parametrised by the `std::sort` implementation `f`: if `levDists` is empty
(`levDists.size() > 0` fails) the root node is chosen, otherwise the pairs
are sorted by ascending distance and the destination of the front pair is
chosen (`levDists.at(0).first->GetChildNode()`).  The `[]` branch of the
match is unreachable under `SortValid f`, since a permutation of a
non-empty list is non-empty. -/
def selectNextNode (f : List (GraphEdge × Nat) → List (GraphEdge × Nat))
    (cur : GraphNode) (rootId : Nat) (message : Str) : Nat :=
  let levDists := collectLevDists cur message
  if levDists = [] then rootId
  else
    match f levDists with
    | [] => rootId
    | p :: _ => p.1.childNode

/-- `ChatBot::SetCurrentNode` (`src/chatbot.cpp` lines 179–192): update
`_currentNode` to the new node, fetch that node's answers, draw a random
index — `dis(generator)` with `dis = uniform_int_distribution(0, size-1)`
ranges exactly over the valid indices when the vector is non-empty, which
is modelled by `rngRaw % answers.length` for an arbitrary raw draw
`rngRaw` — and send `answers.at(index)` through
`_chatLogic->SendMessageToUser`.  When the answer vector is empty,
`answers.at(...)` throws `std::out_of_range` for every possible index
(and the distribution object is invalid to begin with); this surfaces as
the fatal `emptyAnswerSet` error.  The returned list holds the messages
delivered to the output sink during the call. -/
def SetCurrentNode (st : EngineState) (nodeId : Nat) (rngRaw : Nat) :
    Except TurnError (EngineState × List Str) :=
  match findNode st.graph nodeId with
  | none => .error .unknownNode
  | some node =>
      if node.answers = [] then .error .emptyAnswerSet
      else
        .ok ({ st with currentNode := nodeId },
          [node.answers.getD (rngRaw % node.answers.length) []])

/-- `ChatBot::ReceiveMessageFromUser` (`src/chatbot.cpp` lines 145–177)
followed by the advance step of the same turn: collect the per-keyword
distance pairs of the current node, select the next node (or fall back to
the root), and enter the destination.  The hand-off
`_currentNode->MoveChatbotToNewNode(newNode)` is modelled from the spec
(§4.3 steps 4–5; `graphnode.cpp` is not under `src/`): the destination
node receives the chatbot and `SetCurrentNode(newNode)` runs on it as
part of the same turn. -/
def ReceiveMessageFromUser
    (f : List (GraphEdge × Nat) → List (GraphEdge × Nat))
    (st : EngineState) (message : Str) (rngRaw : Nat) :
    Except TurnError (EngineState × List Str) :=
  match findNode st.graph st.currentNode with
  | none => .error .unknownNode
  | some cur =>
      SetCurrentNode st (selectNextNode f cur st.rootNode message) rngRaw

theorem sortValid_insertionSort : SortValid (List.insertionSort edLE) :=
  fun l => ⟨List.perm_insertionSort edLE l, List.sorted_insertionSort edLE l⟩

/-- Inversion of a successful `SetCurrentNode` call: the new state is the
old one with only the current-node handle replaced, the entered node
resolves in the graph, its answer set is non-empty, and exactly one answer
was emitted. -/
theorem SetCurrentNode_ok_inv {st : EngineState} {nodeId rngRaw : Nat}
    {st' : EngineState} {out : List Str}
    (h : SetCurrentNode st nodeId rngRaw = .ok (st', out)) :
    st' = { st with currentNode := nodeId } ∧
    ∃ node, findNode st.graph nodeId = some node ∧ node.answers ≠ [] ∧
      out = [node.answers.getD (rngRaw % node.answers.length) []] := by
  unfold SetCurrentNode at h
  split at h
  · exact absurd h (by simp)
  · rename_i node hfind
    split_ifs at h with hemp
    injection h with hp
    rw [Prod.mk.injEq] at hp
    exact ⟨hp.1.symm, node, hfind, hemp, hp.2.symm⟩

/-- Inversion of a successful turn: the current node resolved, the new
state is the old one with the current-node handle replaced by the selected
next node, and exactly one answer of the entered node was emitted. -/
theorem ReceiveMessageFromUser_ok_inv
    {f : List (GraphEdge × Nat) → List (GraphEdge × Nat)}
    {st : EngineState} {message : Str} {rngRaw : Nat}
    {st' : EngineState} {out : List Str}
    (h : ReceiveMessageFromUser f st message rngRaw = .ok (st', out)) :
    ∃ cur, findNode st.graph st.currentNode = some cur ∧
      st' = { st with
        currentNode := selectNextNode f cur st.rootNode message } ∧
      ∃ node,
        findNode st.graph (selectNextNode f cur st.rootNode message) =
          some node ∧
        node.answers ≠ [] ∧
        out = [node.answers.getD (rngRaw % node.answers.length) []] := by
  unfold ReceiveMessageFromUser at h
  split at h
  · exact absurd h (by simp)
  · rename_i cur hcur
    obtain ⟨h1, node, h2, h3, h4⟩ := SetCurrentNode_ok_inv h
    exact ⟨cur, hcur, h1, node, h2, h3, h4⟩

theorem sorted_perm_head_min {l rest : List (GraphEdge × Nat)}
    {p : GraphEdge × Nat}
    (hperm : List.Perm (p :: rest) l) (hsort : List.Sorted edLE (p :: rest)) :
    p ∈ l ∧ ∀ q ∈ l, p.2 ≤ q.2 := by
  constructor
  · exact hperm.subset (List.mem_cons_self p rest)
  · intro q hq
    have hq' : q ∈ p :: rest := hperm.symm.subset hq
    rcases List.mem_cons.mp hq' with h | h
    · simp [h]
    · exact (List.sorted_cons.mp hsort).1 q h

/-- Claim C3: for every message received while the current node's scoring
produced at least one pair, the selection picks the destination of a pair
achieving the global minimum distance over all collected pairs — there is
no rejection threshold, so this holds no matter how large the distances
are — and a completed turn moves the engine to exactly that node. -/
theorem C3_selects_global_minimum
    (f : List (GraphEdge × Nat) → List (GraphEdge × Nat)) (hf : SortValid f)
    (cur : GraphNode) (rootId : Nat) (message : Str)
    (hne : collectLevDists cur message ≠ []) :
    (∃ p ∈ collectLevDists cur message,
        selectNextNode f cur rootId message = p.1.childNode ∧
        ∀ q ∈ collectLevDists cur message, p.2 ≤ q.2) ∧
    ∀ (st : EngineState) (rngRaw : Nat) (st' : EngineState) (out : List Str),
      st.rootNode = rootId →
      findNode st.graph st.currentNode = some cur →
      ReceiveMessageFromUser f st message rngRaw = .ok (st', out) →
      st'.currentNode = selectNextNode f cur rootId message := by
  constructor
  · obtain ⟨hperm, hsort⟩ := hf (collectLevDists cur message)
    cases hfl : f (collectLevDists cur message) with
    | nil =>
        rw [hfl] at hperm
        exact absurd hperm.symm.eq_nil hne
    | cons p rest =>
        rw [hfl] at hperm hsort
        obtain ⟨hmem, hmin⟩ := sorted_perm_head_min hperm hsort
        refine ⟨p, hmem, ?_, hmin⟩
        unfold selectNextNode
        rw [if_neg hne, hfl]
  · intro st rngRaw st' out hroot hcur hok
    obtain ⟨cur', hcur', hst, _⟩ := ReceiveMessageFromUser_ok_inv hok
    rw [hcur] at hcur'
    injection hcur' with hcc
    subst hcc
    rw [hst, hroot]

/-- Claim C4: if the current node has no outgoing edges (so no pair is
collected), a completed turn moves the engine to the root node. -/
theorem C4_falls_back_to_root
    (f : List (GraphEdge × Nat) → List (GraphEdge × Nat))
    (st : EngineState) (message : Str) (rngRaw : Nat)
    (cur : GraphNode) (st' : EngineState) (out : List Str)
    (hcur : findNode st.graph st.currentNode = some cur)
    (hnoedges : cur.childEdges = [])
    (hok : ReceiveMessageFromUser f st message rngRaw = .ok (st', out)) :
    st'.currentNode = st.rootNode := by
  have hcollect : collectLevDists cur message = [] := by
    unfold collectLevDists
    rw [hnoedges]
    rfl
  have hsel : selectNextNode f cur st.rootNode message = st.rootNode := by
    unfold selectNextNode
    rw [hcollect]
    rfl
  obtain ⟨cur', hcur', hst, _⟩ := ReceiveMessageFromUser_ok_inv hok
  rw [hcur] at hcur'
  injection hcur' with hcc
  subst hcc
  rw [hst, hsel]

/-- Claim C5: topic selection is deterministic — two turns run with the
same message from the same state over the same graph end on the same
current node, whatever the random draws used for response emission are
(the randomness never influences which node is chosen). -/
theorem C5_selection_deterministic
    (f : List (GraphEdge × Nat) → List (GraphEdge × Nat))
    (st : EngineState) (message : Str) (r1 r2 : Nat)
    (st1 st2 : EngineState) (out1 out2 : List Str)
    (h1 : ReceiveMessageFromUser f st message r1 = .ok (st1, out1))
    (h2 : ReceiveMessageFromUser f st message r2 = .ok (st2, out2)) :
    st1.currentNode = st2.currentNode := by
  obtain ⟨cur1, hcur1, hst1, _⟩ := ReceiveMessageFromUser_ok_inv h1
  obtain ⟨cur2, hcur2, hst2, _⟩ := ReceiveMessageFromUser_ok_inv h2
  rw [hcur1] at hcur2
  injection hcur2 with hcc
  subst hcc
  rw [hst1, hst2]

theorem foldl_append_map {α β : Type} (g : α → β) :
    ∀ (l : List α) (acc : List β),
      l.foldl (fun a x => a ++ [g x]) acc = acc ++ l.map g := by
  intro l
  induction l with
  | nil => intro acc; simp
  | cons x l ih => intro acc; simp [ih]

theorem collectLevDists_foldl_eq (message : Str) :
    ∀ (edges : List GraphEdge) (acc : List (GraphEdge × Nat)),
      edges.foldl
        (fun acc2 edge => edge.keywords.foldl
          (fun acc3 keyword =>
            acc3 ++ [(edge, ComputeLevenshteinDistance keyword message)])
          acc2)
        acc =
      acc ++ edges.flatMap (fun edge => edge.keywords.map
        (fun keyword => (edge, ComputeLevenshteinDistance keyword message))) := by
  intro edges
  induction edges with
  | nil => intro acc; simp
  | cons e edges ih =>
      intro acc
      simp only [List.foldl_cons, List.flatMap_cons]
      rw [foldl_append_map
        (fun keyword => (e, ComputeLevenshteinDistance keyword message))
        e.keywords acc]
      rw [ih]
      simp [List.append_assoc]

/-- Claim C6: the scoring pass contributes exactly one pair per keyword of
each outgoing edge, in enumeration order, each pair carrying the matcher
distance between that keyword and the incoming message; an edge with `K`
keywords yields `K` pairs and an edge with no keywords yields none. -/
theorem C6_one_pair_per_keyword (node : GraphNode) (message : Str) :
    collectLevDists node message =
      node.childEdges.flatMap (fun edge =>
        edge.keywords.map (fun keyword =>
          (edge, ComputeLevenshteinDistance keyword message))) ∧
    (collectLevDists node message).length =
      (node.childEdges.map (fun edge => edge.keywords.length)).sum := by
  have h := collectLevDists_foldl_eq message node.childEdges []
  constructor
  · unfold collectLevDists
    rw [h]
    simp
  · unfold collectLevDists
    rw [h]
    simp [List.length_flatMap, Function.comp_def]

/-- Claim C7: entering a node whose answer collection is non-empty emits
exactly one message through the output sink, and the text emitted is an
element of that node's answer collection. -/
theorem C7_emits_one_answer
    (st : EngineState) (nodeId rngRaw : Nat) (node : GraphNode)
    (hfind : findNode st.graph nodeId = some node)
    (hne : node.answers ≠ []) :
    ∃ answer, SetCurrentNode st nodeId rngRaw =
        .ok ({ st with currentNode := nodeId }, [answer]) ∧
      answer ∈ node.answers := by
  have hlen : 0 < node.answers.length := List.length_pos.mpr hne
  have hlt : rngRaw % node.answers.length < node.answers.length :=
    Nat.mod_lt _ hlen
  refine ⟨node.answers.getD (rngRaw % node.answers.length) [], ?_, ?_⟩
  · unfold SetCurrentNode
    simp only [hfind]
    rw [if_neg hne]
  · rw [List.getD_eq_getElem _ _ hlt]
    exact List.getElem_mem hlt

/-- Claim C8: entering a node with an empty answer collection is a fatal
configuration error surfaced to the caller (the `answers.at(...)` lookup
throws for every index); no default text is substituted and the turn never
completes silently. -/
theorem C8_empty_answer_set_fatal
    (st : EngineState) (nodeId rngRaw : Nat) (node : GraphNode)
    (hfind : findNode st.graph nodeId = some node)
    (hempty : node.answers = []) :
    SetCurrentNode st nodeId rngRaw = .error .emptyAnswerSet := by
  unfold SetCurrentNode
  simp only [hfind]
  rw [if_pos hempty]

/-- Claim C9: a completed turn mutates only the current-node handle — the
graph, the image handle, the root-node handle and the chat-logic handle
are all unchanged. -/
theorem C9_turn_mutates_only_current_node
    (f : List (GraphEdge × Nat) → List (GraphEdge × Nat))
    (st : EngineState) (message : Str) (rngRaw : Nat)
    (st' : EngineState) (out : List Str)
    (hok : ReceiveMessageFromUser f st message rngRaw = .ok (st', out)) :
    st'.graph = st.graph ∧ st'.image = st.image ∧
    st'.rootNode = st.rootNode ∧ st'.chatLogic = st.chatLogic := by
  obtain ⟨cur, hcur, hst, _⟩ := ReceiveMessageFromUser_ok_inv hok
  rw [hst]
  exact ⟨rfl, rfl, rfl, rfl⟩

/-- Stable minimum-finding over the collected pairs: the first pair in
enumeration order achieving the minimal distance.  This is the selection
the spec's tie-break sentence asserts. -/
def firstMinBySecond : List (GraphEdge × Nat) → Option (GraphEdge × Nat)
  | [] => none
  | p :: rest =>
      some (rest.foldl (fun best q => if q.2 < best.2 then q else best) p)

/-- Claim C2 as stated: whenever two or more collected pairs share the
same minimum distance, the pair enumerated first (first edge in the
current node's outgoing order, first keyword within that edge) wins, for
every `std::sort` behaviour the C++ standard permits. -/
def TieBreakStableClaim : Prop :=
  ∀ f, SortValid f →
    ∀ (cur : GraphNode) (rootId : Nat) (message : Str) (p : GraphEdge × Nat),
      firstMinBySecond (collectLevDists cur message) = some p →
      2 ≤ ((collectLevDists cur message).filter
            (fun q => q.2 == p.2)).length →
      selectNextNode f cur rootId message = p.1.childNode

/-- A conforming `std::sort` implementation that reverses the input before
insertion-sorting it; on tied elements it outputs the later-enumerated one
first. -/
def revSort (l : List (GraphEdge × Nat)) : List (GraphEdge × Nat) :=
  List.insertionSort edLE l.reverse

theorem revSort_sortValid : SortValid revSort := fun l =>
  ⟨(List.perm_insertionSort edLE l.reverse).trans (List.reverse_perm l),
   List.sorted_insertionSort edLE l.reverse⟩

def tieEdgeA : GraphEdge := { id := 1, keywords := [['a']], childNode := 1 }

def tieEdgeB : GraphEdge := { id := 2, keywords := [['a']], childNode := 2 }

def tieNode : GraphNode :=
  { id := 0, answers := [['H', 'i']], childEdges := [tieEdgeA, tieEdgeB] }

/-- Counterexample to claim C2: at `tieNode` the message `"a"` scores both
outgoing edges at distance 0.  The conforming implementation `revSort`
puts the second-enumerated edge first, so the engine moves to node 2, not
to node 1, the destination of the first-enumerated pair: `std::sort` is
not stable, so first-enumerated need not win. -/
theorem C2_counterexample : ¬ TieBreakStableClaim := by
  intro hclaim
  have h := hclaim revSort revSort_sortValid tieNode 0 ['a'] (tieEdgeA, 0)
    (by decide) (by decide)
  have h2 : selectNextNode revSort tieNode 0 ['a'] = 2 := by decide
  rw [h2] at h
  exact absurd h (by decide)

/-- Claim C2 amended: among pairs tied at the minimum distance the winner
is unspecified rather than the first-enumerated one — every pair achieving
the minimum distance is selected under some `std::sort` behaviour the C++
standard permits (and, by C3, only minimum-distance pairs can ever be
selected). -/
theorem C2_amended_any_min_pair_can_win
    (cur : GraphNode) (rootId : Nat) (message : Str) (p : GraphEdge × Nat)
    (hp : p ∈ collectLevDists cur message)
    (hmin : ∀ q ∈ collectLevDists cur message, p.2 ≤ q.2) :
    ∃ f, SortValid f ∧ selectNextNode f cur rootId message = p.1.childNode := by
  refine ⟨fun l => if l = collectLevDists cur message
      then p :: List.insertionSort edLE
        (@List.erase _ instBEqOfDecidableEq l p)
      else List.insertionSort edLE l, fun l => ?_, ?_⟩
  · by_cases hl : l = collectLevDists cur message
    · subst hl
      simp only [if_true]
      constructor
      · have h1 : List.Perm
            (List.insertionSort edLE
              (@List.erase _ instBEqOfDecidableEq
                (collectLevDists cur message) p))
            (@List.erase _ instBEqOfDecidableEq
              (collectLevDists cur message) p) :=
          List.perm_insertionSort edLE _
        have h2 : List.Perm
            (p :: @List.erase _ instBEqOfDecidableEq
              (collectLevDists cur message) p)
            (collectLevDists cur message) :=
          (List.perm_cons_erase hp).symm
        exact (h1.cons p).trans h2
      · rw [List.sorted_cons]
        constructor
        · intro q hq
          have hq' : q ∈ @List.erase _ instBEqOfDecidableEq
              (collectLevDists cur message) p :=
            (List.perm_insertionSort edLE _).subset hq
          exact hmin q (@List.mem_of_mem_erase _ instBEqOfDecidableEq q p
            (collectLevDists cur message) hq')
        · exact List.sorted_insertionSort edLE _
    · simp only []
      rw [if_neg hl]
      exact ⟨List.perm_insertionSort edLE l, List.sorted_insertionSort edLE l⟩
  · have hne : collectLevDists cur message ≠ [] := by
      intro hcon
      rw [hcon] at hp
      exact absurd hp (List.not_mem_nil p)
    unfold selectNextNode
    rw [if_neg hne]
    simp only [if_true]

/-- The four data handles of a `ChatBot` object (`chatbot.h`): the heap
image `_image`, the node handles `_currentNode` and `_rootNode`, and the
logic handle `_chatLogic`; `none` models a null pointer. -/
structure ChatBotHandles where
  image : Option Nat
  currentNode : Option Nat
  rootNode : Option Nat
  chatLogic : Option Nat
  deriving DecidableEq

/-- The move constructor `ChatBot::ChatBot(ChatBot &&source)`
(`src/chatbot.cpp` lines 102–117): the target copies each of the four data
handles from the source and the source's handles are then invalidated
(set to `NULL` / `nullptr`).  Returns (constructed target, source after
the move). -/
def moveConstructChatBot (source : ChatBotHandles) :
    ChatBotHandles × ChatBotHandles :=
  ({ image := source.image, currentNode := source.currentNode,
     rootNode := source.rootNode, chatLogic := source.chatLogic },
   { image := none, currentNode := none, rootNode := none,
     chatLogic := none })

/-- The move assignment operator `ChatBot::operator=(ChatBot &&source)`
(`src/chatbot.cpp` lines 123–143): after the self-assignment guard
`if (this == &source) return *this;` — modelled by the `selfAssign` flag —
the target copies the four data handles from the source and the source's
handles are invalidated.  Returns (assigned target, source after the
move). -/
def moveAssignChatBot (target source : ChatBotHandles)
    (selfAssign : Bool) : ChatBotHandles × ChatBotHandles :=
  if selfAssign then (target, source)
  else
    ({ image := source.image, currentNode := source.currentNode,
       rootNode := source.rootNode, chatLogic := source.chatLogic },
     { image := none, currentNode := none, rootNode := none,
       chatLogic := none })

/-- Claim C10: after the move constructor, or the move assignment operator
with source distinct from target, all four handles of the moved-from
`ChatBot` are null while the target holds exactly the handle values the
source held before the move. -/
theorem C10_move_transfers_and_nulls_source
    (target source : ChatBotHandles) :
    ((moveConstructChatBot source).1 = source ∧
     (moveConstructChatBot source).2.image = none ∧
     (moveConstructChatBot source).2.currentNode = none ∧
     (moveConstructChatBot source).2.rootNode = none ∧
     (moveConstructChatBot source).2.chatLogic = none) ∧
    ((moveAssignChatBot target source false).1 = source ∧
     (moveAssignChatBot target source false).2.image = none ∧
     (moveAssignChatBot target source false).2.currentNode = none ∧
     (moveAssignChatBot target source false).2.rootNode = none ∧
     (moveAssignChatBot target source false).2.chatLogic = none) := by
  exact ⟨⟨rfl, rfl, rfl, rfl, rfl⟩, ⟨rfl, rfl, rfl, rfl, rfl⟩⟩

def demoEmptyNode : GraphNode := { id := 2, answers := [], childEdges := [] }

def demoLeaf : GraphNode :=
  { id := 1, answers := [['Y', 'o']], childEdges := [] }

def demoRoot : GraphNode :=
  { id := 0, answers := [['H', 'i']],
    childEdges := [{ id := 10, keywords := [['h', 'i']], childNode := 1 }] }

def demoState : EngineState :=
  { graph := [demoRoot, demoLeaf, demoEmptyNode], image := some 5,
    currentNode := 0, rootNode := 0, chatLogic := 7 }

/-- Witness for C2 (amended) at a concrete tie: the second-enumerated tied
pair `(tieEdgeB, 0)` can win under a conforming sort. -/
theorem C2_amended_witness :
    ∃ f, SortValid f ∧
      selectNextNode f tieNode 0 ['a'] = (tieEdgeB, 0).1.childNode :=
  C2_amended_any_min_pair_can_win tieNode 0 ['a'] (tieEdgeB, 0)
    (by decide) (by decide)

/-- Witness for C3 at a concrete graph and message. -/
theorem C3_witness :
    (∃ p ∈ collectLevDists demoRoot ['h', 'i'],
        selectNextNode (List.insertionSort edLE) demoRoot 0 ['h', 'i'] =
          p.1.childNode ∧
        ∀ q ∈ collectLevDists demoRoot ['h', 'i'], p.2 ≤ q.2) ∧
    ∀ (st : EngineState) (rngRaw : Nat) (st' : EngineState) (out : List Str),
      st.rootNode = 0 →
      findNode st.graph st.currentNode = some demoRoot →
      ReceiveMessageFromUser (List.insertionSort edLE) st ['h', 'i'] rngRaw =
        .ok (st', out) →
      st'.currentNode =
        selectNextNode (List.insertionSort edLE) demoRoot 0 ['h', 'i'] :=
  C3_selects_global_minimum (List.insertionSort edLE) sortValid_insertionSort
    demoRoot 0 ['h', 'i'] (by decide)

/-- Witness for C4: from the edgeless node 1, any message returns the
engine to the root node 0. -/
theorem C4_witness :
    ({ demoState with currentNode := 0 } : EngineState).currentNode =
      ({ demoState with currentNode := 1 } : EngineState).rootNode :=
  C4_falls_back_to_root (List.insertionSort edLE)
    { demoState with currentNode := 1 } ['x'] 0 demoLeaf
    { demoState with currentNode := 0 } [['H', 'i']]
    (by rfl) (by rfl) (by rfl)

/-- Witness for C5: two runs with random draws 0 and 3 end on the same
current node. -/
theorem C5_witness :
    ({ demoState with currentNode := 1 } : EngineState).currentNode =
      ({ demoState with currentNode := 1 } : EngineState).currentNode :=
  C5_selection_deterministic (List.insertionSort edLE) demoState ['h', 'i']
    0 3 { demoState with currentNode := 1 } { demoState with currentNode := 1 }
    [['Y', 'o']] [['Y', 'o']] (by rfl) (by rfl)

/-- Witness for C7: entering node 1 emits exactly one of its answers. -/
theorem C7_witness :
    ∃ answer, SetCurrentNode demoState 1 0 =
        .ok ({ demoState with currentNode := 1 }, [answer]) ∧
      answer ∈ demoLeaf.answers :=
  C7_emits_one_answer demoState 1 0 demoLeaf (by rfl) (by decide)

/-- Witness for C8: entering the answerless node 2 fails fatally. -/
theorem C8_witness :
    SetCurrentNode demoState 2 0 = .error .emptyAnswerSet :=
  C8_empty_answer_set_fatal demoState 2 0 demoEmptyNode (by rfl) (by rfl)

/-- Witness for C9: a completed concrete turn leaves every handle but the
current node unchanged. -/
theorem C9_witness :
    ({ demoState with currentNode := 1 } : EngineState).graph =
        demoState.graph ∧
    ({ demoState with currentNode := 1 } : EngineState).image =
        demoState.image ∧
    ({ demoState with currentNode := 1 } : EngineState).rootNode =
        demoState.rootNode ∧
    ({ demoState with currentNode := 1 } : EngineState).chatLogic =
        demoState.chatLogic :=
  C9_turn_mutates_only_current_node (List.insertionSort edLE) demoState
    ['h', 'i'] 0 { demoState with currentNode := 1 } [['Y', 'o']] (by rfl)
